import Mathlib

/-!
Verification of the Trika workflow execution engine and its frontend editor
hook (`frontend/src/hooks/useWorkflow.ts`), against the natural-language
specification of the system.

The frontend editor operations (`addNode`, `updateNodeParams`, `saveWorkflow`,
`loadWorkflow`, `executeWorkflow`, the WebSocket message handler and the
unmount cleanup) are embedded directly from `useWorkflow.ts`.  The backend
engine (graph validator/scheduler, execution engine, record store, progress
publisher) has no source file in the repository snapshot — only its
documentation — so those parts are modelled from the specification and are
marked as such in their doc comments.

Parameter values, variable values and node positions are opaque to all of the
embedded code (they are copied around, never inspected), so they are
represented by a type parameter `α`.  String-keyed mappings are association
lists with first-match lookup; the JavaScript spread `{...old, ...new}` and
Python `dict.update` are modelled by list append with the overriding entries
in front.
-/

namespace Trika

/-! ## Frontend data model (from `useWorkflow.ts`) -/

/-- The `WorkflowNode.data` payload from `useWorkflow.ts`: label, node-type discriminant
and opaque params mapping. -/
structure NodeData (α : Type) where
  label : String
  type : String
  params : List (String × α)
  deriving Repr, DecidableEq

/-- A React Flow node as used by the editor: id, render type (always
`"custom"`), display position, and the workflow data payload. -/
structure WorkflowNode (α : Type) where
  id : String
  type : String
  pos : α
  data : NodeData α
  deriving Repr, DecidableEq

/-- A React Flow edge as used by the editor: id, endpoints, optional
handles, and the display fields set by `onConnect`/`loadWorkflow`. -/
structure EditorEdge where
  id : String
  source : String
  target : String
  sourceHandle : Option String
  targetHandle : Option String
  animated : Bool
  stroke : Option String
  deriving Repr, DecidableEq

/-! ## Serialized workflow shape (the JSON bodies built by `saveWorkflow`
and read back by `loadWorkflow`) -/

/-- The `config` object of a serialized node. -/
structure SavedNodeConfig (α : Type) where
  type : String
  label : String
  params : List (String × α)
  pos : α
  deriving Repr, DecidableEq

/-- A serialized node: `{ id, config: { type, label, params, position } }`. -/
structure SavedNode (α : Type) where
  id : String
  config : SavedNodeConfig α
  deriving Repr, DecidableEq

/-- A serialized edge: `{ id, source, target, source_handle, target_handle }`. -/
structure SavedEdge where
  id : String
  source : String
  target : String
  source_handle : Option String
  target_handle : Option String
  deriving Repr, DecidableEq

/-- The workflow body sent by `saveWorkflow` (and stored by the backend):
name, description, nodes, edges. -/
structure SavedWorkflow (α : Type) where
  name : String
  description : String
  nodes : List (SavedNode α)
  edges : List SavedEdge
  deriving Repr, DecidableEq

/-- Embeds `saveWorkflow` (useWorkflow.ts lines 120–140): serialize the editor
state into the workflow body `{name, description, nodes, edges}`. -/
def saveWorkflow (α : Type) (name : String) (nodes : List (WorkflowNode α))
    (edges : List EditorEdge) : SavedWorkflow α :=
  { name := name
    description := ""
    nodes := nodes.map fun n =>
      { id := n.id
        config :=
          { type := n.data.type
            label := n.data.label
            params := n.data.params
            pos := n.pos } }
    edges := edges.map fun e =>
      { id := e.id
        source := e.source
        target := e.target
        source_handle := e.sourceHandle
        target_handle := e.targetHandle } }

/-- Embeds `loadWorkflow` (useWorkflow.ts lines 210–246): deserialize a stored
workflow body back into editor nodes and edges. -/
def loadWorkflow (α : Type) (w : SavedWorkflow α) :
    List (WorkflowNode α) × List EditorEdge :=
  (w.nodes.map fun n =>
      { id := n.id
        type := "custom"
        pos := n.config.pos
        data :=
          { label := n.config.label
            type := n.config.type
            params := n.config.params } },
   w.edges.map fun e =>
      { id := e.id
        source := e.source
        target := e.target
        sourceHandle := e.source_handle
        targetHandle := e.target_handle
        animated := true
        stroke := some "#0ea5e9" })

/-! ## Editor operations (from `useWorkflow.ts`) -/

/-- Capitalization `type.charAt(0).toUpperCase() + type.slice(1)` from `addNode`. -/
def capitalizeFirst (s : String) : String :=
  (s.take 1).toUpper ++ s.drop 1

/-- Embeds `addNode` (useWorkflow.ts lines 46–59): append a freshly identified node
of render type `"custom"`, with label the capitalized type string and empty
params, to the current node list.  `freshId` stands for the
`crypto.randomUUID()` result. -/
def addNode (α : Type) (freshId ty : String) (p : α)
    (nds : List (WorkflowNode α)) : List (WorkflowNode α) :=
  nds ++ [{ id := freshId
            type := "custom"
            pos := p
            data := { label := capitalizeFirst ty, type := ty, params := [] } }]

/-- Embeds `updateNodeParams` (useWorkflow.ts lines 61–69): map over the node list,
merging the new params over the params of every node whose id matches
(`{...node.data.params, ...params}`, new keys win); the hook's callback only
rewrites the node list, so the edge list component is passed through. -/
def updateNodeParams (α : Type) (nodeId : String) (ps : List (String × α))
    (st : List (WorkflowNode α) × List EditorEdge) :
    List (WorkflowNode α) × List EditorEdge :=
  (st.1.map fun node =>
      if node.id = nodeId then
        { node with data := { node.data with params := ps ++ node.data.params } }
      else node,
   st.2)

/-! ## Live-progress client (from `useWorkflow.ts`) -/

/-- The `type` discriminant of an `ExecutionUpdate`
(useWorkflow.ts lines 22–26). -/
inductive UpdateType
  | start
  | nodeCompleted
  | completed
  | failed
  | pong
  deriving Repr, DecidableEq

/-- An `ExecutionUpdate` pushed over the live channel. -/
structure ExecUpdate where
  type : UpdateType
  timestamp : String
  deriving Repr, DecidableEq

/-- The hook state relevant to the live channel: the `isExecuting` flag, the
last stored `executionStatus`, and the execution id the WebSocket in
`wsRef` is connected to (`none` when no connection is open). -/
structure ClientState where
  isExecuting : Bool
  executionStatus : Option ExecUpdate
  wsTarget : Option String
  deriving Repr, DecidableEq

/-- An event is terminal when its type is `completed` or `failed`. -/
def isTerminalUpdate (u : ExecUpdate) : Prop :=
  u.type = UpdateType.completed ∨ u.type = UpdateType.failed

instance (u : ExecUpdate) : Decidable (isTerminalUpdate u) := by
  unfold isTerminalUpdate
  infer_instance

/-- The `onmessage` handler (useWorkflow.ts lines 84–98): store the parsed
update; on a `completed` or `failed` event additionally clear `isExecuting`
and close the connection. -/
def onMessage (s : ClientState) (u : ExecUpdate) : ClientState :=
  let s1 : ClientState := { s with executionStatus := some u }
  if isTerminalUpdate u then
    { s1 with isExecuting := false, wsTarget := none }
  else s1

/-- Deliver a sequence of events to the handler; a closed WebSocket
delivers no further messages, so processing stops once `wsTarget` is
cleared. -/
def processEvents (s : ClientState) : List ExecUpdate → ClientState
  | [] => s
  | u :: rest =>
      if s.wsTarget.isSome then processEvents (onMessage s u) rest else s

/-- The unmount cleanup effect (useWorkflow.ts lines 112–118): close the
WebSocket if one is open. -/
def unmountCleanup (s : ClientState) : ClientState :=
  { s with wsTarget := none }

/-- Embeds `connectWebSocket` (useWorkflow.ts lines 71–110): point `wsRef` at the
live channel of the given execution. -/
def connectWebSocket (s : ClientState) (executionId : String) : ClientState :=
  { s with wsTarget := some executionId }

/-- The keep-alive probe the client sends in `onopen`
(useWorkflow.ts line 81): `{ action: "ping" }`. -/
structure ClientProbe where
  action : String
  deriving Repr, DecidableEq

/-- The probe sent on open. -/
def onOpenProbe : ClientProbe where
  action := "ping"

/-- Modelled from the spec: the live-progress endpoint
(`app/api/workflow_ws.py`, which is not under the source snapshot) answers
a client keep-alive probe with a `pong`-typed acknowledgement. -/
def replyToProbe (p : ClientProbe) (ts : String) : Option ExecUpdate :=
  if p.action = "ping" then
    some { type := UpdateType.pong, timestamp := ts }
  else none

/-- The record describing a started execution, as returned by the execute
endpoint and consumed by the frontend. -/
structure ExecutionInfo where
  id : String
  status : String
  deriving Repr, DecidableEq

/-- Embeds `executeWorkflow` (useWorkflow.ts lines 180–208).  `saveRes` is the
outcome of the `saveWorkflow` call (`none` models a non-ok create/update
response, which `saveWorkflow` converts to a thrown error), `execRes` the
outcome of the execute POST (`none` models a non-ok response).  On either
failure the catch block resets `isExecuting` and rethrows, and
`connectWebSocket` is never reached; on success the WebSocket is connected
to the returned execution id and the execution info is returned. -/
def executeWorkflowFE (saveRes : Option String)
    (execRes : Option ExecutionInfo) (s : ClientState) :
    ClientState × Except String ExecutionInfo :=
  let s1 : ClientState := { s with isExecuting := true, executionStatus := none }
  match saveRes with
  | none => ({ s1 with isExecuting := false }, Except.error "Failed to save workflow")
  | some _ =>
      match execRes with
      | none =>
          ({ s1 with isExecuting := false }, Except.error "Failed to execute workflow")
      | some exec => (connectWebSocket s1 exec.id, Except.ok exec)

/-! ## Graph validator and scheduler

The backend scheduler (`app/workflow/executor.py`) is not part of the
source snapshot — only its documentation — so this section is modelled
from the specification (§4.2): Kahn's algorithm over the stored
node/edge definition, with the ascending-node-id tie-break the
specification fixes, and validation failing on a dangling edge endpoint,
an unknown node type, or a cycle. -/

/-- Modelled from the spec: the error raised synchronously for a
malformed or cyclic graph or an unknown node type. -/
inductive ValidationError
  | missingNodeRef
  | unknownNodeType
  | cyclicGraph
  deriving Repr, DecidableEq

/-- The node types registered at startup, from the implementation
summary: llm, http, code, condition, transform, rag, search, input,
output, loop. -/
def knownNodeTypes : List String :=
  ["input", "output", "llm", "http", "code", "condition", "transform",
   "rag", "search", "loop"]

/-- The node ids of a stored definition. -/
def nodeIds (α : Type) (wf : SavedWorkflow α) : List String :=
  wf.nodes.map (·.id)

/-- Every edge references existing node ids at both endpoints. -/
def edgeRefsOk (α : Type) (wf : SavedWorkflow α) : Bool :=
  wf.edges.all fun e =>
    (nodeIds α wf).contains e.source && (nodeIds α wf).contains e.target

/-- Every node's type is resolvable by the registry. -/
def typesOk (α : Type) (wf : SavedWorkflow α) : Bool :=
  wf.nodes.all fun n => knownNodeTypes.contains n.config.type

/-- Modelled from the spec: the nodes of `remaining` with zero remaining
in-degree, i.e. no incoming edge whose source is still unprocessed. -/
def readyNodes (edges : List SavedEdge) (remaining : List String) : List String :=
  remaining.filter fun v =>
    ! edges.any fun e => e.target == v && remaining.contains e.source

/-- Modelled from the spec: the extraction loop of Kahn's algorithm —
repeatedly extract a zero-in-degree node (the head of `readyNodes`,
which is the least id because `remaining` is kept sorted) and append it
to the order; if the loop gets stuck before `remaining` is exhausted the
remaining nodes participate in a cycle and no order exists. -/
def kahnLoop (edges : List SavedEdge) : Nat → List String → Option (List String)
  | 0, remaining => if remaining.isEmpty then some [] else none
  | fuel + 1, remaining =>
      if remaining.isEmpty then some []
      else
        match readyNodes edges remaining with
        | [] => none
        | v :: _ => (kahnLoop edges fuel (remaining.erase v)).map (v :: ·)

/-- Lexicographic comparison of char lists by code point, the order in
which node ids are compared for the deterministic tie-break. -/
def charListLe : List Char → List Char → Bool
  | [], _ => true
  | _ :: _, [] => false
  | a :: as, b :: bs =>
      if a.toNat < b.toNat then true
      else if b.toNat < a.toNat then false
      else charListLe as bs

/-- Ascending (lexicographic) order on node ids. -/
def strLe (a b : String) : Bool :=
  charListLe a.data b.data

/-- Modelled from the spec: the deterministic topological order of a
stored definition — Kahn's algorithm seeded with the node ids in
ascending order. -/
def topologicalSort (α : Type) (wf : SavedWorkflow α) : Option (List String) :=
  kahnLoop wf.edges wf.nodes.length
    (List.insertionSort (fun a b => strLe a b = true) (nodeIds α wf))

/-- Modelled from the spec: validation fails when any edge references a
missing node id, any node type is not resolvable, or the graph contains
a cycle; otherwise it produces the computed execution order. -/
def validateWorkflow (α : Type) (wf : SavedWorkflow α) :
    Except ValidationError (List String) :=
  if edgeRefsOk α wf then
    if typesOk α wf then
      match topologicalSort α wf with
      | none => Except.error ValidationError.cyclicGraph
      | some order => Except.ok order
    else Except.error ValidationError.unknownNodeType
  else Except.error ValidationError.missingNodeRef

/-- A directed edge from `u` to `v` in the stored edge collection. -/
def edgeBetween (edges : List SavedEdge) (u v : String) : Prop :=
  ∃ e ∈ edges, e.source = u ∧ e.target = v

/-- A nonempty directed walk that returns to its start: the graph
contains a cycle. -/
def HasCycle (edges : List SavedEdge) : Prop :=
  ∃ (v : String) (p : List String),
    p ≠ [] ∧ List.Chain (edgeBetween edges) v p ∧ p.getLast? = some v

/-! ## Execution engine

Modelled from the specification (§4.3): the backend engine file
(`app/workflow/executor.py`) is not in the source snapshot.  Node
behaviour is abstracted into a function from node id and effective input
to an optional `NodeResult`; `none` models an engine-level fault (a
failure escaping the node contract), while a node-local failure is an
ordinary `NodeResult` with `success := false`. -/

/-- Execution record status. -/
inductive ExecStatus
  | pending
  | running
  | completed
  | failed
  deriving Repr, DecidableEq

/-- The per-node outcome contract. -/
structure NodeResult (α : Type) where
  success : Bool
  output : List (String × α)
  error : Option String
  deriving Repr, DecidableEq

/-- The durable record of one execution. -/
structure ExecutionRecord (α : Type) where
  id : String
  workflowId : String
  status : ExecStatus
  inputData : List (String × α)
  outputData : Option (List (String × α))
  nodeOutputs : List (String × NodeResult α)
  error : Option String
  deriving Repr, DecidableEq

/-- The in-memory result of driving one execution. -/
structure EngineOutcome (α : Type) where
  status : ExecStatus
  nodeOutputs : List (String × NodeResult α)
  outputData : Option (List (String × α))
  deriving Repr, DecidableEq

/-- Modelled from the spec: a node's effective input merges the outputs
of its direct predecessors into the running context, later-ordered
predecessors overwriting keys of earlier ones (overriding entries sit in
front of the association list), and nodes with no predecessors receive
the seeded context. -/
def effectiveInput (α : Type) (edges : List SavedEdge)
    (executed : List (String × NodeResult α)) (ctx : List (String × α))
    (n : String) : List (String × α) :=
  ((executed.filter fun pr =>
      edges.any fun e => e.source == pr.1 && e.target == n).reverse.map
        (·.2.output)).flatten ++ ctx

/-- Modelled from the spec: execute the nodes in topological order.  A
node-local failure is recorded like any other result and the loop
continues; an engine-level fault (`exec` returning `none`) halts the
loop with status `failed`; on normal completion the status is
`completed` and the output data is the last executed node's output. -/
def runNodes (α : Type)
    (exec : String → List (String × α) → Option (NodeResult α))
    (edges : List SavedEdge) :
    List String → List (String × α) → List (String × NodeResult α) →
    EngineOutcome α
  | [], _ctx, acc =>
      { status := ExecStatus.completed
        nodeOutputs := acc
        outputData := acc.getLast?.map (·.2.output) }
  | n :: rest, ctx, acc =>
      match exec n (effectiveInput α edges acc ctx n) with
      | none =>
          { status := ExecStatus.failed, nodeOutputs := acc, outputData := none }
      | some r => runNodes α exec edges rest ctx (acc ++ [(n, r)])

/-- Modelled from the spec: one full execution of a stored definition —
validate and order, seed the context with the caller's input merged over
the definition's variables (caller wins), then run the nodes. -/
def executeDefinition (α : Type)
    (exec : String → List (String × α) → Option (NodeResult α))
    (wf : SavedWorkflow α) (vars inputData : List (String × α)) :
    Except ValidationError (EngineOutcome α) :=
  match validateWorkflow α wf with
  | Except.error e => Except.error e
  | Except.ok order =>
      Except.ok (runNodes α exec wf.edges order (inputData ++ vars) [])

/-- Modelled from the spec: the update endpoint — validate the new
definition and only then replace it in the definition store (first-match
lookup, so consing shadows the previous version). -/
def updateWorkflowBE (α : Type) (wf : SavedWorkflow α) (wfId : String)
    (defs : List (String × SavedWorkflow α)) :
    Except ValidationError (List (String × SavedWorkflow α)) :=
  match validateWorkflow α wf with
  | Except.error err => Except.error err
  | Except.ok _ => Except.ok ((wfId, wf) :: defs)

/-- Modelled from the spec: the execute endpoint — validate
synchronously; on failure reject and leave the record store untouched,
otherwise append a fresh `running` record with empty node outputs and
return its id to the caller. -/
def executeWorkflowBE (α : Type) (wf : SavedWorkflow α)
    (wfId newId : String) (input : List (String × α))
    (records : List (ExecutionRecord α)) :
    Except ValidationError String × List (ExecutionRecord α) :=
  match validateWorkflow α wf with
  | Except.error err => (Except.error err, records)
  | Except.ok _ =>
      (Except.ok newId,
        records ++ [{ id := newId
                      workflowId := wfId
                      status := ExecStatus.running
                      inputData := input
                      outputData := none
                      nodeOutputs := []
                      error := none }])

/-- Lifecycle events of one execute request, used to state that the
execution id is returned to the caller before any node runs. -/
inductive FlowEvent
  | recordCreated (executionId : String)
  | returnedToCaller (executionId : String)
  | nodeExecuted (nodeId : String)
  | terminalEvent (status : ExecStatus)
  deriving Repr, DecidableEq

/-- Modelled from the spec: the event history of one execute request —
the record is created and the execution id returned to the caller, then
the background task executes the nodes and ends in a terminal status.
An invalid definition produces no events because the request is rejected
synchronously. -/
def requestTrace (α : Type)
    (exec : String → List (String × α) → Option (NodeResult α))
    (wf : SavedWorkflow α) (vars : List (String × α)) (newId : String)
    (input : List (String × α)) : List FlowEvent :=
  match validateWorkflow α wf with
  | Except.error _ => []
  | Except.ok order =>
      let outcome := runNodes α exec wf.edges order (input ++ vars) []
      FlowEvent.recordCreated newId :: FlowEvent.returnedToCaller newId ::
        (outcome.nodeOutputs.map fun p => FlowEvent.nodeExecuted p.1)
          ++ [FlowEvent.terminalEvent outcome.status]

/-- Proof-support construction: the backward walk
`[g (start+d-1), ..., g (start+1), g start]` through a graph, used to
extract a cycle from a stuck scheduler state. -/
def walkList (g : Nat → String) (start : Nat) : Nat → List String
  | 0 => []
  | d + 1 => g (start + d) :: walkList g start d

/-! ## Concrete sample data used to instantiate the theorems -/

/-- A two-node definition with the single edge a → b. -/
def wfLin : SavedWorkflow Nat where
  name := "lin"
  description := ""
  nodes :=
    [{ id := "a", config := { type := "input", label := "Input", params := [], pos := 0 } },
     { id := "b", config := { type := "output", label := "Output", params := [], pos := 1 } }]
  edges :=
    [{ id := "e1", source := "a", target := "b",
       source_handle := none, target_handle := none }]

/-- A two-node definition with edges a → b and b → a: a cycle. -/
def wfCycle : SavedWorkflow Nat where
  name := "cyc"
  description := ""
  nodes :=
    [{ id := "a", config := { type := "input", label := "Input", params := [], pos := 0 } },
     { id := "b", config := { type := "output", label := "Output", params := [], pos := 1 } }]
  edges :=
    [{ id := "e1", source := "a", target := "b",
       source_handle := none, target_handle := none },
     { id := "e2", source := "b", target := "a",
       source_handle := none, target_handle := none }]

/-- An acyclic definition whose single edge dangles: its target `b` is
not a node of the definition. -/
def wfDangling : SavedWorkflow Nat where
  name := "dang"
  description := ""
  nodes :=
    [{ id := "a", config := { type := "input", label := "Input", params := [], pos := 0 } }]
  edges :=
    [{ id := "e1", source := "a", target := "b",
       source_handle := none, target_handle := none }]

/-- A concrete node behaviour: node a reports a node-local failure,
every other node succeeds echoing its input. -/
def sampleExec : String → List (String × Nat) → Option (NodeResult Nat) :=
  fun n input =>
    if n = "a" then
      some { success := false, output := [("x", 1)], error := some "boom" }
    else some { success := true, output := input, error := none }

/-- A concrete editor node. -/
def sampleNode : WorkflowNode Nat where
  id := "n1"
  type := "custom"
  pos := 0
  data := { label := "Llm", type := "llm", params := [("k", 1)] }

/-- The node `addNode "input"` appends when the fresh id is `"n2"`. -/
def sampleInputNode : WorkflowNode Nat where
  id := "n2"
  type := "custom"
  pos := 5
  data := { label := capitalizeFirst "input", type := "input", params := [] }

end Trika

namespace Trika

/-- First-match lookup distributes over append: keys of the front list take
precedence, exactly the JavaScript spread semantics being modelled. -/
theorem lookup_append {β : Type} (k : String) (l₁ l₂ : List (String × β)) :
    (l₁ ++ l₂).lookup k = ((l₁.lookup k).orElse fun _ => l₂.lookup k) := by
  induction l₁ with
  | nil => simp [List.lookup]
  | cons p l ih =>
      by_cases h : k = p.1
      · simp [List.lookup, h, Option.orElse]
      · simpa [List.lookup, beq_false_of_ne h] using ih

/-- C1: serializing the editor state with `saveWorkflow` and deserializing
the stored result with `loadWorkflow` preserves every node's id, type
discriminant, label, params and position, and every edge's id, endpoints and
handles; the definition carries no workflow-level variables (none are
serialized and none are read back), so the variables mapping is preserved
trivially. -/
theorem saveWorkflow_loadWorkflow_roundTrip (α : Type) (name : String)
    (nodes : List (WorkflowNode α)) (edges : List EditorEdge) :
    ((loadWorkflow α (saveWorkflow α name nodes edges)).1.map (·.id)
        = nodes.map (·.id)
      ∧ (loadWorkflow α (saveWorkflow α name nodes edges)).1.map (·.data.type)
        = nodes.map (·.data.type)
      ∧ (loadWorkflow α (saveWorkflow α name nodes edges)).1.map (·.data.label)
        = nodes.map (·.data.label)
      ∧ (loadWorkflow α (saveWorkflow α name nodes edges)).1.map (·.data.params)
        = nodes.map (·.data.params)
      ∧ (loadWorkflow α (saveWorkflow α name nodes edges)).1.map (·.pos)
        = nodes.map (·.pos))
    ∧ ((loadWorkflow α (saveWorkflow α name nodes edges)).2.map (·.id)
        = edges.map (·.id)
      ∧ (loadWorkflow α (saveWorkflow α name nodes edges)).2.map (·.source)
        = edges.map (·.source)
      ∧ (loadWorkflow α (saveWorkflow α name nodes edges)).2.map (·.target)
        = edges.map (·.target)
      ∧ (loadWorkflow α (saveWorkflow α name nodes edges)).2.map (·.sourceHandle)
        = edges.map (·.sourceHandle)
      ∧ (loadWorkflow α (saveWorkflow α name nodes edges)).2.map (·.targetHandle)
        = edges.map (·.targetHandle)) := by
  simp [loadWorkflow, saveWorkflow]

/-- C9: `addNode` appends exactly one node — with the fresh id, the
capitalized type string as label and empty params — leaving all existing
nodes unchanged, and when the fresh id is not already present the node-id
list stays duplicate-free. -/
theorem addNode_spec (α : Type) (freshId ty : String) (p : α)
    (nds : List (WorkflowNode α))
    (hfresh : freshId ∉ nds.map (·.id))
    (hnodup : (nds.map (·.id)).Nodup) :
    addNode α freshId ty p nds
        = nds ++ [{ id := freshId
                    type := "custom"
                    pos := p
                    data := { label := capitalizeFirst ty
                              type := ty
                              params := [] } }]
      ∧ ((addNode α freshId ty p nds).map (·.id)).Nodup := by
  refine ⟨rfl, ?_⟩
  simp only [addNode, List.map_append, List.map_cons, List.map_nil]
  exact List.Nodup.append hnodup (List.nodup_singleton _)
    (by simpa [List.disjoint_singleton] using hfresh)

/-- C9 witness. -/
theorem addNode_spec_witness :
    addNode Nat "n2" "input" 5 [sampleNode]
        = [sampleNode, sampleInputNode]
      ∧ ((addNode Nat "n2" "input" 5 [sampleNode]).map (·.id)).Nodup := by
  have h := addNode_spec Nat "n2" "input" 5 [sampleNode]
    (by decide) (by decide)
  exact ⟨by rw [h.1]; rfl, h.2⟩

/-- C10: `updateNodeParams` changes at most the params of nodes whose id
matches, replacing them by the old params merged with the new params with
new keys taking precedence (stated via lookup); ids, positions, render
types, labels and type discriminants of all nodes, every non-matching node,
and the edge list are unchanged, and when no node carries the id the state
is unchanged entirely. -/
theorem updateNodeParams_spec (α : Type) (nodeId : String)
    (ps : List (String × α))
    (st : List (WorkflowNode α) × List EditorEdge) :
    ((updateNodeParams α nodeId ps st).1.map (·.id) = st.1.map (·.id)
      ∧ (updateNodeParams α nodeId ps st).1.map (·.pos) = st.1.map (·.pos)
      ∧ (updateNodeParams α nodeId ps st).1.map (·.type) = st.1.map (·.type)
      ∧ (updateNodeParams α nodeId ps st).1.map (·.data.type)
          = st.1.map (·.data.type)
      ∧ (updateNodeParams α nodeId ps st).1.map (·.data.label)
          = st.1.map (·.data.label))
    ∧ (∀ (i : Nat) (n : WorkflowNode α), st.1[i]? = some n → n.id ≠ nodeId →
        (updateNodeParams α nodeId ps st).1[i]? = some n)
    ∧ (∀ (i : Nat) (n : WorkflowNode α), st.1[i]? = some n → n.id = nodeId →
        ∃ m : WorkflowNode α, (updateNodeParams α nodeId ps st).1[i]? = some m
          ∧ m.id = n.id ∧ m.pos = n.pos ∧ m.type = n.type
          ∧ m.data.label = n.data.label ∧ m.data.type = n.data.type
          ∧ ∀ k, m.data.params.lookup k
              = ((ps.lookup k).orElse fun _ => n.data.params.lookup k))
    ∧ ((∀ n ∈ st.1, n.id ≠ nodeId) → updateNodeParams α nodeId ps st = st)
    ∧ (updateNodeParams α nodeId ps st).2 = st.2 := by
  refine ⟨⟨?_, ?_, ?_, ?_, ?_⟩, ?_, ?_, ?_, rfl⟩
  · simp only [updateNodeParams, List.map_map]
    refine List.map_congr_left fun n _ => ?_
    by_cases h : n.id = nodeId <;> simp [Function.comp, h]
  · simp only [updateNodeParams, List.map_map]
    refine List.map_congr_left fun n _ => ?_
    by_cases h : n.id = nodeId <;> simp [Function.comp, h]
  · simp only [updateNodeParams, List.map_map]
    refine List.map_congr_left fun n _ => ?_
    by_cases h : n.id = nodeId <;> simp [Function.comp, h]
  · simp only [updateNodeParams, List.map_map]
    refine List.map_congr_left fun n _ => ?_
    by_cases h : n.id = nodeId <;> simp [Function.comp, h]
  · simp only [updateNodeParams, List.map_map]
    refine List.map_congr_left fun n _ => ?_
    by_cases h : n.id = nodeId <;> simp [Function.comp, h]
  · intro i n hi hne
    simp [updateNodeParams, List.getElem?_map, hi, hne]
  · intro i n hi heq
    refine ⟨{ n with data := { n.data with params := ps ++ n.data.params } },
      ?_, rfl, rfl, rfl, rfl, rfl, fun k => lookup_append k ps n.data.params⟩
    simp [updateNodeParams, List.getElem?_map, hi, heq]
  · intro hall
    have hmap : st.1.map (fun node =>
        if node.id = nodeId then
          { node with data :=
              { node.data with params := ps ++ node.data.params } }
        else node) = st.1 := by
      conv_rhs => rw [← List.map_id st.1]
      refine List.map_congr_left fun n hn => ?_
      simp [hall n hn]
    simp only [updateNodeParams, hmap]

/-- C10 witness: a node whose id does not match is left untouched. -/
theorem updateNodeParams_spec_witness :
    (updateNodeParams Nat "other" [("a", 2)] ([sampleNode], [])).1[0]?
      = some sampleNode :=
  (updateNodeParams_spec Nat "other" [("a", 2)]
    ([sampleNode], [])).2.1 0 sampleNode rfl (by decide)

/-- Once the WebSocket is closed no further message is delivered. -/
theorem processEvents_of_closed (s : ClientState) (l : List ExecUpdate)
    (h : s.wsTarget = none) : processEvents s l = s := by
  cases l <;> simp [processEvents, h]

/-- C6: a live-progress subscription is torn down when its execution
reaches a terminal state or when the observer disconnects, whichever comes
first — on a stream containing a `completed` or `failed` event the handler
closes the connection and clears `isExecuting`, and the unmount cleanup
closes the connection as well. -/
theorem subscription_teardown :
    (∀ (s : ClientState) (events : List ExecUpdate),
        s.wsTarget.isSome = true →
        (∃ u ∈ events, isTerminalUpdate u) →
        (processEvents s events).wsTarget = none
          ∧ (processEvents s events).isExecuting = false)
    ∧ ∀ s : ClientState, (unmountCleanup s).wsTarget = none := by
  constructor
  · intro s events
    induction events generalizing s with
    | nil => rintro _ ⟨u, hu, -⟩; exact absurd hu (List.not_mem_nil u)
    | cons u rest ih =>
        intro hopen hterm
        by_cases hu : isTerminalUpdate u
        · have hclosed : (onMessage s u).wsTarget = none := by
            simp [onMessage, hu]
          have hstopped : (onMessage s u).isExecuting = false := by
            simp [onMessage, hu]
          simp only [processEvents, hopen, if_true]
          rw [processEvents_of_closed _ _ hclosed]
          exact ⟨hclosed, hstopped⟩
        · obtain ⟨v, hv, hvterm⟩ := hterm
          have hvrest : v ∈ rest := by
            rcases List.mem_cons.mp hv with rfl | h
            · exact absurd hvterm hu
            · exact h
          have hopen1 : (onMessage s u).wsTarget.isSome = true := by
            simp [onMessage, hu, hopen]
          simp only [processEvents, hopen, if_true]
          exact ih (onMessage s u) hopen1 ⟨v, hvrest, hvterm⟩
  · intro s
    rfl

/-- C6 witness. -/
theorem subscription_teardown_witness :
    ((processEvents
        { isExecuting := true, executionStatus := none, wsTarget := some "e1" }
        [{ type := UpdateType.start, timestamp := "t0" },
         { type := UpdateType.completed, timestamp := "t1" }]).wsTarget = none
      ∧ (processEvents
        { isExecuting := true, executionStatus := none, wsTarget := some "e1" }
        [{ type := UpdateType.start, timestamp := "t0" },
         { type := UpdateType.completed, timestamp := "t1" }]).isExecuting = false)
    ∧ (unmountCleanup
        { isExecuting := true, executionStatus := none,
          wsTarget := some "e1" }).wsTarget = none :=
  ⟨subscription_teardown.1
      { isExecuting := true, executionStatus := none, wsTarget := some "e1" }
      [{ type := UpdateType.start, timestamp := "t0" },
       { type := UpdateType.completed, timestamp := "t1" }]
      (by decide)
      ⟨{ type := UpdateType.completed, timestamp := "t1" }, by decide, by decide⟩,
    subscription_teardown.2
      { isExecuting := true, executionStatus := none, wsTarget := some "e1" }⟩

/-- C7: when either the save step or the execute request of
`executeWorkflow` fails, the call surfaces an error to the caller, the
`isExecuting` flag is reset to `false`, and no live-progress connection is
opened by the call. -/
theorem executeWorkflow_failure_path (saveRes : Option String)
    (execRes : Option ExecutionInfo) (s : ClientState)
    (hfail : saveRes = none ∨ execRes = none) :
    (∃ msg, (executeWorkflowFE saveRes execRes s).2 = Except.error msg)
      ∧ (executeWorkflowFE saveRes execRes s).1.isExecuting = false
      ∧ (executeWorkflowFE saveRes execRes s).1.wsTarget = s.wsTarget := by
  rcases hfail with rfl | rfl
  · exact ⟨⟨"Failed to save workflow", rfl⟩, rfl, rfl⟩
  · cases saveRes with
    | none => exact ⟨⟨"Failed to save workflow", rfl⟩, rfl, rfl⟩
    | some wfId => exact ⟨⟨"Failed to execute workflow", rfl⟩, rfl, rfl⟩

/-- C7 witness. -/
theorem executeWorkflow_failure_path_witness :
    (∃ msg, (executeWorkflowFE (some "w1") none
        { isExecuting := false, executionStatus := none,
          wsTarget := none }).2 = Except.error msg)
      ∧ (executeWorkflowFE (some "w1") none
          { isExecuting := false, executionStatus := none,
            wsTarget := none }).1.isExecuting = false
      ∧ (executeWorkflowFE (some "w1") none
          { isExecuting := false, executionStatus := none,
            wsTarget := none }).1.wsTarget
        = ClientState.wsTarget
            { isExecuting := false, executionStatus := none, wsTarget := none } :=
  executeWorkflow_failure_path (some "w1") none
    { isExecuting := false, executionStatus := none, wsTarget := none }
    (Or.inr rfl)

/-- C8: a keep-alive probe is answered with a `pong`-typed acknowledgement,
and a `pong` event is accepted by the client handler (stored as the latest
status) without being treated as terminal: the connection stays as it was
and `isExecuting` is untouched. -/
theorem pong_keepalive :
    (∀ ts, replyToProbe onOpenProbe ts
        = some { type := UpdateType.pong, timestamp := ts })
    ∧ ∀ (s : ClientState) (u : ExecUpdate), u.type = UpdateType.pong →
        onMessage s u = { s with executionStatus := some u } := by
  constructor
  · intro ts
    rfl
  · intro s u hu
    simp [onMessage, isTerminalUpdate, hu]

/-- C8 witness. -/
theorem pong_keepalive_witness :
    replyToProbe onOpenProbe "t0"
        = some { type := UpdateType.pong, timestamp := "t0" }
      ∧ onMessage
          { isExecuting := true, executionStatus := none, wsTarget := some "e1" }
          { type := UpdateType.pong, timestamp := "t0" }
        = { isExecuting := true,
            executionStatus := some { type := UpdateType.pong, timestamp := "t0" },
            wsTarget := some "e1" } :=
  ⟨pong_keepalive.1 "t0",
    pong_keepalive.2
      { isExecuting := true, executionStatus := none, wsTarget := some "e1" }
      { type := UpdateType.pong, timestamp := "t0" } rfl⟩

/-- The order produced by the extraction loop holds exactly the nodes it
was seeded with. -/
theorem kahnLoop_mem (edges : List SavedEdge) :
    ∀ (fuel : Nat) (remaining order : List String),
      kahnLoop edges fuel remaining = some order →
      ∀ x, x ∈ order ↔ x ∈ remaining := by
  intro fuel
  induction fuel with
  | zero =>
      intro remaining order h x
      simp only [kahnLoop] at h
      split at h
      · obtain rfl : ([] : List String) = order := by simpa using h
        simp_all [List.isEmpty_iff]
      · exact absurd h (by simp)
  | succ k ih =>
      intro remaining order h x
      simp only [kahnLoop] at h
      split at h
      · obtain rfl : ([] : List String) = order := by simpa using h
        simp_all [List.isEmpty_iff]
      · cases hr : readyNodes edges remaining with
        | nil => rw [hr] at h; exact absurd h (by simp)
        | cons v vs =>
            rw [hr] at h
            dsimp only at h
            cases hk : kahnLoop edges k (remaining.erase v) with
            | none => rw [hk] at h; exact absurd h (by simp)
            | some tail =>
                rw [hk] at h
                obtain rfl : v :: tail = order := by simpa using h
                have hv : v ∈ remaining :=
                  List.mem_of_mem_filter (hr ▸ List.mem_cons_self v vs)
                have htail := ih (remaining.erase v) tail hk
                constructor
                · intro hx
                  rcases List.mem_cons.mp hx with rfl | hx
                  · exact hv
                  · exact List.mem_of_mem_erase ((htail x).mp hx)
                · intro hx
                  by_cases hxv : x = v
                  · exact hxv ▸ List.mem_cons_self v tail
                  · exact List.mem_cons_of_mem v
                      ((htail x).mpr ((List.mem_erase_of_ne hxv).mpr hx))

/-- Core ordering property of the extraction loop: for an edge whose two
endpoints are both still to be processed, the source is placed strictly
before the target in the produced order. -/
theorem kahnLoop_edge_order (edges : List SavedEdge) :
    ∀ (fuel : Nat) (remaining order : List String),
      kahnLoop edges fuel remaining = some order →
      ∀ e ∈ edges, e.source ∈ remaining → e.target ∈ remaining →
        order.indexOf e.source < order.indexOf e.target := by
  intro fuel
  induction fuel with
  | zero =>
      intro remaining order h e _ hs _
      simp only [kahnLoop] at h
      split at h
      · simp_all [List.isEmpty_iff]
      · exact absurd h (by simp)
  | succ k ih =>
      intro remaining order h e he hs ht
      simp only [kahnLoop] at h
      split at h
      · simp_all [List.isEmpty_iff]
      · cases hr : readyNodes edges remaining with
        | nil => rw [hr] at h; exact absurd h (by simp)
        | cons v vs =>
            rw [hr] at h
            dsimp only at h
            cases hk : kahnLoop edges k (remaining.erase v) with
            | none => rw [hk] at h; exact absurd h (by simp)
            | some tail =>
                rw [hk] at h
                obtain rfl : v :: tail = order := by simpa using h
                have hvready : v ∈ readyNodes edges remaining :=
                  hr ▸ List.mem_cons_self v vs
                have hvfilter := List.mem_filter.mp hvready
                by_cases hvt : v = e.target
                · exfalso
                  have hnone := hvfilter.2
                  rw [Bool.not_eq_true', List.any_eq_false] at hnone
                  apply hnone e he
                  simp only [hvt, beq_self_eq_true, Bool.true_and]
                  simpa using hs
                · rw [List.indexOf_cons_ne tail hvt]
                  by_cases hvs : v = e.source
                  · rw [← hvs, List.indexOf_cons_self]
                    exact Nat.succ_pos _
                  · rw [List.indexOf_cons_ne tail hvs]
                    exact Nat.succ_lt_succ
                      (ih (remaining.erase v) tail hk e he
                        ((List.mem_erase_of_ne fun hh => hvs hh.symm).mpr hs)
                        ((List.mem_erase_of_ne fun hh => hvt hh.symm).mpr ht))

/-- Inversion of a successful validation: both structural checks passed
and the scheduler produced the order. -/
theorem validateWorkflow_ok_inv (α : Type) (wf : SavedWorkflow α)
    (order : List String) (h : validateWorkflow α wf = Except.ok order) :
    edgeRefsOk α wf = true ∧ typesOk α wf = true
      ∧ topologicalSort α wf = some order := by
  by_cases h1 : edgeRefsOk α wf
  · by_cases h2 : typesOk α wf
    · refine ⟨h1, h2, ?_⟩
      simp only [validateWorkflow, h1, h2, if_true] at h
      cases hts : topologicalSort α wf <;> rw [hts] at h
      · exact absurd h (by simp)
      · simpa using h
    · simp [validateWorkflow, h1, h2] at h
  · simp [validateWorkflow, h1] at h

/-- A passed edge-reference check puts every edge's endpoints among the
node ids. -/
theorem edgeRefsOk_mem (α : Type) (wf : SavedWorkflow α)
    (h : edgeRefsOk α wf = true) :
    ∀ e ∈ wf.edges, e.source ∈ nodeIds α wf ∧ e.target ∈ nodeIds α wf := by
  intro e he
  rw [edgeRefsOk, List.all_eq_true] at h
  have := h e he
  rw [Bool.and_eq_true] at this
  exact ⟨by simpa using this.1, by simpa using this.2⟩

/-- A successful validation yields an order that places every edge's
source before its target and ranges over exactly the node ids. -/
theorem validate_ok_order_spec (α : Type) (wf : SavedWorkflow α)
    (order : List String)
    (hvalid : validateWorkflow α wf = Except.ok order) :
    (∀ e ∈ wf.edges, List.indexOf e.source order < List.indexOf e.target order)
      ∧ ∀ x, x ∈ order ↔ x ∈ nodeIds α wf := by
  obtain ⟨hrefs, -, hsort⟩ := validateWorkflow_ok_inv α wf order hvalid
  have hperm :
      List.Perm
        (List.insertionSort (fun a b => strLe a b = true) (nodeIds α wf))
        (nodeIds α wf) :=
    List.perm_insertionSort _ _
  constructor
  · intro e he
    obtain ⟨hsmem, htmem⟩ := edgeRefsOk_mem α wf hrefs e he
    exact kahnLoop_edge_order wf.edges wf.nodes.length _ order hsort e he
      (hperm.mem_iff.mpr hsmem) (hperm.mem_iff.mpr htmem)
  · intro x
    rw [kahnLoop_mem wf.edges wf.nodes.length _ order hsort x]
    exact hperm.mem_iff

/-- C3: for every validated workflow definition, the computed execution
order places the source of every edge strictly before its target, and the
order ranges over exactly the node ids of the definition. -/
theorem topological_order_correct (α : Type) (wf : SavedWorkflow α)
    (order : List String)
    (hvalid : validateWorkflow α wf = Except.ok order) :
    (∀ e ∈ wf.edges, List.indexOf e.source order < List.indexOf e.target order)
      ∧ ∀ x, x ∈ order ↔ x ∈ nodeIds α wf :=
  validate_ok_order_spec α wf order hvalid

/-- C3 witness: on the concrete linear definition a → b the computed
order is `["a", "b"]`, which indeed puts a before b and covers both
node ids. -/
theorem topological_order_correct_witness :
    List.indexOf "a" ["a", "b"] < List.indexOf "b" ["a", "b"]
      ∧ ("a" ∈ ["a", "b"] ↔ "a" ∈ nodeIds Nat wfLin) :=
  ⟨(topological_order_correct Nat wfLin ["a", "b"] rfl).1
      { id := "e1", source := "a", target := "b",
        source_handle := none, target_handle := none } (by decide),
    (topological_order_correct Nat wfLin ["a", "b"] rfl).2 "a"⟩

/-- A nonzero-length walk list is nonempty. -/
theorem walkList_ne_nil (g : Nat → String) (start d : Nat) (h : 0 < d) :
    walkList g start d ≠ [] := by
  cases d with
  | zero => exact absurd h (by simp)
  | succ k => simp [walkList]

/-- The last element of a nonzero-length walk list is the walk's start. -/
theorem walkList_getLast (g : Nat → String) (start : Nat) :
    ∀ d, 0 < d → (walkList g start d).getLast? = some (g start) := by
  intro d
  induction d with
  | zero => intro h; exact absurd h (by simp)
  | succ k ih =>
      intro _
      cases k with
      | zero => rfl
      | succ m =>
          show (g (start + (m + 1)) :: walkList g start (m + 1)).getLast?
            = some (g start)
          rw [show walkList g start (m + 1)
              = g (start + m) :: walkList g start m from rfl]
          rw [List.getLast?_cons_cons]
          rw [show g (start + m) :: walkList g start m
              = walkList g start (m + 1) from rfl]
          exact ih (Nat.succ_pos m)

/-- A backward-step function induces a chain along the walk list. -/
theorem walkList_chain (edges : List SavedEdge) (g : Nat → String)
    (hedge : ∀ n, edgeBetween edges (g (n + 1)) (g n)) (start : Nat) :
    ∀ d, List.Chain (edgeBetween edges) (g (start + d)) (walkList g start d) := by
  intro d
  induction d with
  | zero => exact List.Chain.nil
  | succ k ih =>
      show List.Chain (edgeBetween edges) (g (start + (k + 1)))
        (g (start + k) :: walkList g start k)
      exact List.chain_cons.mpr ⟨hedge (start + k), ih⟩

/-- If the extraction loop is stuck — no node of a nonempty remainder is
ready — then the graph contains a cycle: every remaining node has an
incoming edge from a remaining node, so a long enough backward walk must
revisit a node. -/
theorem stuck_hasCycle (edges : List SavedEdge) (remaining : List String)
    (hne : remaining ≠ []) (hstuck : readyNodes edges remaining = []) :
    HasCycle edges := by
  classical
  have hpred : ∀ v ∈ remaining, ∃ u ∈ remaining, edgeBetween edges u v := by
    intro v hv
    by_contra hcon
    push_neg at hcon
    have hvready : v ∈ readyNodes edges remaining := by
      rw [readyNodes, List.mem_filter]
      refine ⟨hv, ?_⟩
      rw [Bool.not_eq_true', List.any_eq_false]
      intro e he
      by_cases h1 : e.target = v
      · by_cases h2 : e.source ∈ remaining
        · exact absurd ⟨e, he, rfl, h1⟩ (hcon e.source h2)
        · simp [h2]
      · simp [h1]
    rw [hstuck] at hvready
    exact absurd hvready (List.not_mem_nil v)
  have hpredT : ∀ v, ∃ u, v ∈ remaining → u ∈ remaining ∧ edgeBetween edges u v := by
    intro v
    by_cases hv : v ∈ remaining
    · obtain ⟨u, hu, hue⟩ := hpred v hv
      exact ⟨u, fun _ => ⟨hu, hue⟩⟩
    · exact ⟨v, fun h => absurd h hv⟩
  choose f hf using hpredT
  obtain ⟨v0, hv0⟩ := List.exists_mem_of_ne_nil remaining hne
  let g : Nat → String := fun n => Nat.rec v0 (fun _ x => f x) n
  have hgs : ∀ n, g (n + 1) = f (g n) := fun _ => rfl
  have hgmem : ∀ n, g n ∈ remaining := by
    intro n
    induction n with
    | zero => exact hv0
    | succ k ih => rw [hgs]; exact (hf (g k) ih).1
  have hgedge : ∀ n, edgeBetween edges (g (n + 1)) (g n) := by
    intro n
    rw [hgs]
    exact (hf (g n) (hgmem n)).2
  have hcard :
      remaining.toFinset.card < (Finset.range (remaining.length + 1)).card := by
    rw [Finset.card_range]
    exact Nat.lt_succ_of_le remaining.toFinset_card_le
  have hmaps :
      ∀ n ∈ Finset.range (remaining.length + 1), g n ∈ remaining.toFinset := by
    intro n _
    rw [List.mem_toFinset]
    exact hgmem n
  obtain ⟨i, -, j, -, hij, hgij⟩ :=
    Finset.exists_ne_map_eq_of_card_lt_of_maps_to hcard hmaps
  have key : ∀ a b : Nat, a < b → g a = g b → HasCycle edges := by
    intro a b hab hg
    refine ⟨g b, walkList g a (b - a),
      walkList_ne_nil g a (b - a) (by omega), ?_, ?_⟩
    · have hch := walkList_chain edges g hgedge a (b - a)
      rwa [show a + (b - a) = b from by omega] at hch
    · rw [walkList_getLast g a (b - a) (by omega), hg]
  rcases Nat.lt_or_ge i j with h | h
  · exact key i j h hgij
  · exact key j i (lt_of_le_of_ne h fun hh => hij hh.symm) hgij.symm

/-- On a cycle-free graph the extraction loop, given enough fuel, always
consumes its whole remainder and produces an order. -/
theorem kahnLoop_total (edges : List SavedEdge) :
    ∀ (fuel : Nat) (remaining : List String),
      remaining.length ≤ fuel → ¬ HasCycle edges →
      (kahnLoop edges fuel remaining).isSome = true := by
  intro fuel
  induction fuel with
  | zero =>
      intro remaining hlen _
      have : remaining = [] := List.length_eq_zero.mp (Nat.le_zero.mp hlen)
      simp [kahnLoop, this]
  | succ k ih =>
      intro remaining hlen hnc
      by_cases hemp : remaining.isEmpty
      · simp [kahnLoop, hemp]
      · have hne : remaining ≠ [] := by
          simpa [List.isEmpty_iff] using hemp
        cases hr : readyNodes edges remaining with
        | nil => exact absurd (stuck_hasCycle edges remaining hne hr) hnc
        | cons v vs =>
            have hv : v ∈ remaining :=
              List.mem_of_mem_filter (hr ▸ List.mem_cons_self v vs)
            have hpos : 0 < remaining.length := List.length_pos.mpr hne
            have hlen2 : (remaining.erase v).length ≤ k := by
              rw [List.length_erase_of_mem hv]
              omega
            obtain ⟨tail, htail⟩ :=
              Option.isSome_iff_exists.mp (ih (remaining.erase v) hlen2 hnc)
            simp [kahnLoop, hemp, hr, htail]

/-- Lift the per-edge ordering property to directed chains: the start of
a nonempty chain sits strictly before its last node. -/
theorem chain_indexOf_lt (edges : List SavedEdge) (order : List String)
    (hEO : ∀ e ∈ edges,
      List.indexOf e.source order < List.indexOf e.target order) :
    ∀ (p : List String) (v w : String), List.Chain (edgeBetween edges) v p →
      p.getLast? = some w →
      List.indexOf v order < List.indexOf w order := by
  intro p
  induction p with
  | nil =>
      intro v w _ hlast
      simp at hlast
  | cons a q ih =>
      intro v w hchain hlast
      rw [List.chain_cons] at hchain
      obtain ⟨⟨e, he, hs, ht⟩, hq⟩ := hchain
      have hva : List.indexOf v order < List.indexOf a order := by
        have hvt := hEO e he
        rwa [hs, ht] at hvt
      cases q with
      | nil =>
          simp at hlast
          exact hlast ▸ hva
      | cons b q2 =>
          rw [List.getLast?_cons_cons] at hlast
          exact lt_trans hva (ih a w hq hlast)

/-- A cyclic definition can never validate: a successful order would put
some node strictly before itself. -/
theorem hasCycle_validate_error (α : Type) (wf : SavedWorkflow α)
    (h : HasCycle wf.edges) :
    ∃ err, validateWorkflow α wf = Except.error err := by
  cases hv : validateWorkflow α wf with
  | error err => exact ⟨err, rfl⟩
  | ok order =>
      exfalso
      obtain ⟨v, p, hpne, hchain, hlast⟩ := h
      exact absurd
        (chain_indexOf_lt wf.edges order
          (validate_ok_order_spec α wf order hv).1 p v v hchain hlast)
        (lt_irrefl _)

/-- An acyclic definition that passes the structural checks validates. -/
theorem acyclic_validate_ok (α : Type) (wf : SavedWorkflow α)
    (hnc : ¬ HasCycle wf.edges) (hrefs : edgeRefsOk α wf = true)
    (hty : typesOk α wf = true) :
    ∃ order, validateWorkflow α wf = Except.ok order := by
  have hlen :
      (List.insertionSort (fun a b => strLe a b = true) (nodeIds α wf)).length
        ≤ wf.nodes.length := by
    rw [(List.perm_insertionSort _ _).length_eq]
    simp [nodeIds]
  obtain ⟨order, ho⟩ := Option.isSome_iff_exists.mp
    (kahnLoop_total wf.edges wf.nodes.length _ hlen hnc)
  refine ⟨order, ?_⟩
  simp [validateWorkflow, hrefs, hty, topologicalSort, ho]

/-- A graph whose only edge joins two distinct nodes has no cycle. -/
theorem singleEdge_noCycle (e : SavedEdge) (hne : e.source ≠ e.target) :
    ¬ HasCycle [e] := by
  rintro ⟨v, p, hpne, hchain, hlast⟩
  cases p with
  | nil => exact hpne rfl
  | cons a q =>
      rw [List.chain_cons] at hchain
      obtain ⟨⟨e1, he1, hs1, ht1⟩, hq⟩ := hchain
      rw [List.mem_singleton] at he1
      subst he1
      cases q with
      | nil =>
          simp at hlast
          exact hne (by rw [hs1, ht1, hlast])
      | cons b q2 =>
          rw [List.chain_cons] at hq
          obtain ⟨⟨e2, he2, hs2, ht2⟩, -⟩ := hq
          rw [List.mem_singleton] at he2
          subst he2
          exact hne (by rw [hs2, ht1])

/-- C4 counterexample: `wfDangling` is acyclic — its single edge leads
out of the node set — yet validation rejects it, so "for every acyclic
definition, validation succeeds" fails as stated. -/
theorem acyclicity_claim_counterexample :
    ¬ HasCycle wfDangling.edges
      ∧ validateWorkflow Nat wfDangling
          = Except.error ValidationError.missingNodeRef := by
  constructor
  · exact singleEdge_noCycle
      { id := "e1", source := "a", target := "b",
        source_handle := none, target_handle := none } (by decide)
  · rfl

/-- C4 (amended): a cyclic definition is rejected synchronously with a
`ValidationError` by validation, by `updateWorkflow` and by
`executeWorkflow`, and the execute rejection leaves the record store
untouched (no `ExecutionRecord` is created); conversely every acyclic
definition whose edges reference existing nodes and whose node types are
known validates successfully. -/
theorem cyclic_rejected_acyclic_validated (α : Type) (wf : SavedWorkflow α) :
    (HasCycle wf.edges →
        (∃ err, validateWorkflow α wf = Except.error err)
        ∧ (∀ (wfId : String) (defs : List (String × SavedWorkflow α)),
            ∃ err, updateWorkflowBE α wf wfId defs = Except.error err)
        ∧ ∀ (wfId newId : String) (input : List (String × α))
            (records : List (ExecutionRecord α)),
            (∃ err, (executeWorkflowBE α wf wfId newId input records).1
                = Except.error err)
            ∧ (executeWorkflowBE α wf wfId newId input records).2 = records)
    ∧ (¬ HasCycle wf.edges → edgeRefsOk α wf = true → typesOk α wf = true →
        ∃ order, validateWorkflow α wf = Except.ok order) := by
  constructor
  · intro hc
    obtain ⟨err, herr⟩ := hasCycle_validate_error α wf hc
    refine ⟨⟨err, herr⟩, ?_, ?_⟩
    · intro wfId defs
      exact ⟨err, by simp [updateWorkflowBE, herr]⟩
    · intro wfId newId input records
      exact ⟨⟨err, by simp [executeWorkflowBE, herr]⟩,
        by simp [executeWorkflowBE, herr]⟩
  · exact acyclic_validate_ok α wf

/-- C4 witness: the two-node cycle is rejected and the linear definition
validates. -/
theorem cyclic_rejected_acyclic_validated_witness :
    (∃ err, validateWorkflow Nat wfCycle = Except.error err)
      ∧ ∃ order, validateWorkflow Nat wfLin = Except.ok order := by
  constructor
  · refine ((cyclic_rejected_acyclic_validated Nat wfCycle).1 ?_).1
    refine ⟨"a", ["b", "a"], by decide, ?_, rfl⟩
    refine List.chain_cons.mpr ⟨?_, List.chain_cons.mpr ⟨?_, List.Chain.nil⟩⟩
    · exact ⟨{ id := "e1", source := "a", target := "b",
               source_handle := none, target_handle := none },
        by decide, rfl, rfl⟩
    · exact ⟨{ id := "e2", source := "b", target := "a",
               source_handle := none, target_handle := none },
        by decide, rfl, rfl⟩
  · exact (cyclic_rejected_acyclic_validated Nat wfLin).2
      (singleEdge_noCycle
        { id := "e1", source := "a", target := "b",
          source_handle := none, target_handle := none } (by decide))
      (by decide) (by decide)

/-- Appending a binding for `n` makes `n` found by lookup. -/
theorem lookup_snoc_isSome {β : Type} (acc : List (String × β)) (n : String)
    (r : β) : ((acc ++ [(n, r)]).lookup n).isSome = true := by
  induction acc with
  | nil => simp [List.lookup]
  | cons p l ih =>
      by_cases h : n = p.1
      · simp [List.lookup, h]
      · simp only [List.cons_append, List.lookup, beq_false_of_ne h]
        exact ih

/-- When no engine-level fault occurs, the node loop runs to the end:
the status is `completed` and every scheduled node (and every already
recorded node) has an entry in `nodeOutputs` — regardless of how many
nodes report `success := false`. -/
theorem runNodes_complete (α : Type)
    (exec : String → List (String × α) → Option (NodeResult α))
    (edges : List SavedEdge) :
    ∀ (order : List String) (ctx : List (String × α))
      (acc : List (String × NodeResult α)),
      (∀ n ∈ order, ∀ input, (exec n input).isSome = true) →
      (runNodes α exec edges order ctx acc).status = ExecStatus.completed
        ∧ ∀ n, (n ∈ order ∨ (acc.lookup n).isSome = true) →
            ((runNodes α exec edges order ctx acc).nodeOutputs.lookup n).isSome
              = true := by
  intro order
  induction order with
  | nil =>
      intro ctx acc _
      refine ⟨rfl, ?_⟩
      rintro n (hn | hn)
      · exact absurd hn (List.not_mem_nil n)
      · exact hn
  | cons m rest ih =>
      intro ctx acc hex
      obtain ⟨r, hr⟩ := Option.isSome_iff_exists.mp
        (hex m (List.mem_cons_self m rest) (effectiveInput α edges acc ctx m))
      have hstep : runNodes α exec edges (m :: rest) ctx acc
          = runNodes α exec edges rest ctx (acc ++ [(m, r)]) := by
        simp [runNodes, hr]
      have hrec := ih ctx (acc ++ [(m, r)])
        (fun n hn input => hex n (List.mem_cons_of_mem m hn) input)
      rw [hstep]
      refine ⟨hrec.1, ?_⟩
      rintro n (hn | hn)
      · rcases List.mem_cons.mp hn with rfl | hn2
        · exact hrec.2 n (Or.inr (lookup_snoc_isSome acc n r))
        · exact hrec.2 n (Or.inl hn2)
      · refine hrec.2 n (Or.inr ?_)
        rw [lookup_append]
        obtain ⟨b, hb⟩ := Option.isSome_iff_exists.mp hn
        simp [hb, Option.orElse]

/-- C2: in an execution of a validated workflow with no engine-level
fault — in particular one where some node reports `success := false` —
every node of the topological order is executed and recorded, and the
final status is `completed`. -/
theorem failure_isolation (α : Type)
    (exec : String → List (String × α) → Option (NodeResult α))
    (wf : SavedWorkflow α) (vars inputData : List (String × α))
    (order : List String)
    (hvalid : validateWorkflow α wf = Except.ok order)
    (hnofault : ∀ n ∈ order, ∀ input, (exec n input).isSome = true)
    (hsomefail : ∃ n ∈ order, ∀ input r, exec n input = some r →
      r.success = false) :
    ∃ outcome, executeDefinition α exec wf vars inputData = Except.ok outcome
      ∧ outcome.status = ExecStatus.completed
      ∧ ∀ n ∈ order, (outcome.nodeOutputs.lookup n).isSome = true := by
  have h := runNodes_complete α exec wf.edges order (inputData ++ vars) []
    hnofault
  refine ⟨runNodes α exec wf.edges order (inputData ++ vars) [], ?_, h.1, ?_⟩
  · simp [executeDefinition, hvalid]
  · intro n hn
    exact h.2 n (Or.inl hn)

/-- C2 witness: on the linear definition a → b with node a failing, both
nodes are executed and the execution completes. -/
theorem failure_isolation_witness :
    ∃ outcome, executeDefinition Nat sampleExec wfLin [] [] = Except.ok outcome
      ∧ outcome.status = ExecStatus.completed
      ∧ ∀ n ∈ ["a", "b"], (outcome.nodeOutputs.lookup n).isSome = true := by
  refine failure_isolation Nat sampleExec wfLin [] [] ["a", "b"] rfl ?_ ?_
  · intro n _ input
    rw [sampleExec]
    split <;> rfl
  · refine ⟨"a", by decide, ?_⟩
    intro input r hr
    rw [sampleExec] at hr
    simp at hr
    rw [← hr]

/-- C5: the execute request returns the execution id to the caller right
after creating the `running` record with empty node outputs, and in the
lifecycle trace of the request every node execution event sits strictly
after the record-creation and return events. -/
theorem executeWorkflow_returns_before_nodes (α : Type)
    (exec : String → List (String × α) → Option (NodeResult α))
    (wf : SavedWorkflow α) (vars input : List (String × α))
    (wfId newId : String) (records : List (ExecutionRecord α))
    (order : List String)
    (hvalid : validateWorkflow α wf = Except.ok order) :
    (executeWorkflowBE α wf wfId newId input records).1 = Except.ok newId
      ∧ (executeWorkflowBE α wf wfId newId input records).2
          = records ++ [{ id := newId
                          workflowId := wfId
                          status := ExecStatus.running
                          inputData := input
                          outputData := none
                          nodeOutputs := []
                          error := none }]
      ∧ (requestTrace α exec wf vars newId input)[0]?
          = some (FlowEvent.recordCreated newId)
      ∧ (requestTrace α exec wf vars newId input)[1]?
          = some (FlowEvent.returnedToCaller newId)
      ∧ ∀ (i : Nat) (n : String),
          (requestTrace α exec wf vars newId input)[i]?
            = some (FlowEvent.nodeExecuted n) → 2 ≤ i := by
  have htr : requestTrace α exec wf vars newId input
      = FlowEvent.recordCreated newId :: FlowEvent.returnedToCaller newId ::
          (((runNodes α exec wf.edges order (input ++ vars) []).nodeOutputs.map
              fun p => FlowEvent.nodeExecuted p.1)
            ++ [FlowEvent.terminalEvent
                  (runNodes α exec wf.edges order (input ++ vars) []).status]) := by
    simp [requestTrace, hvalid]
  refine ⟨by simp [executeWorkflowBE, hvalid],
    by simp [executeWorkflowBE, hvalid], ?_, ?_, ?_⟩
  · simp [htr]
  · simp [htr]
  · intro i n hi
    rw [htr] at hi
    cases i with
    | zero => simp at hi
    | succ i1 =>
        cases i1 with
        | zero => simp at hi
        | succ k => omega

/-- C5 witness. -/
theorem executeWorkflow_returns_before_nodes_witness :
    (executeWorkflowBE Nat wfLin "w1" "x1" [] []).1 = Except.ok "x1"
      ∧ (executeWorkflowBE Nat wfLin "w1" "x1" [] []).2
          = [] ++ [{ id := "x1"
                     workflowId := "w1"
                     status := ExecStatus.running
                     inputData := []
                     outputData := none
                     nodeOutputs := []
                     error := none }]
      ∧ (requestTrace Nat sampleExec wfLin [] "x1" [])[0]?
          = some (FlowEvent.recordCreated "x1")
      ∧ (requestTrace Nat sampleExec wfLin [] "x1" [])[1]?
          = some (FlowEvent.returnedToCaller "x1")
      ∧ ∀ (i : Nat) (n : String),
          (requestTrace Nat sampleExec wfLin [] "x1" [])[i]?
            = some (FlowEvent.nodeExecuted n) → 2 ≤ i :=
  executeWorkflow_returns_before_nodes Nat sampleExec wfLin [] [] "w1" "x1" []
    ["a", "b"] rfl

end Trika
